import Mathlib

/-!
Shallow embedding of the HB threshold-calibration tool of `calclean`
(`tools/hbanalyzer.cpp`, plus the config-file variant of the same program).

Conventions of the embedding:
* machine `double`/`float` values are idealized as exact rationals (`ℚ`);
* ROOT `TH1D` histograms appear only through `GetBinContent`, and every fill
  has unit weight, so a histogram is a function `ℕ → ℕ` from bin index
  (1-based, as in ROOT) to its count;
* the external survival function `TMath::Prob` is an abstract parameter
  `prob : ℚ → ℤ → ℚ`; `ProbTM` models the guard structure documented by ROOT
  (`ndf ≤ 0` yields 0, `chi2 = 0` yields 1) on top of an abstract continuous
  tail `cdfc`;
* the `TH1D` phi-binning (uniform bins over `[-π, π)`) involves `π` and is
  kept abstract as a parameter `binOf : ℚ → ℕ`;
* the C++ `while` loop of `cost_function::getignored` is rendered with a
  fuel parameter; `getignoredAux_fuel_congr` below proves the result does
  not depend on the fuel once it exceeds `PHI_DIVS`, so `PHI_DIVS + 1` units
  are enough for every run starting from the empty exclusion list.  Reading
  the uninitialized `stats::maxphi` member (C++ undefined behaviour, which
  happens exactly when no non-excluded bin has a positive count) is
  modelled by the value `none`.
-/

/-- Number of bins in eta (`ETA_DIVS` in the source). -/
def ETA_DIVS : ℤ := 34

/-- Number of bins in phi (`PHI_DIVS = 360 / 5` in the source). -/
def PHI_DIVS : ℕ := 360 / 5

/-- Small struct for HB hits (`struct hit` in the source; the fields are the
only ones the tool reads from the data file). -/
structure hit where
  eta : ℚ
  phi : ℚ
  hadenergy : ℚ
  deriving DecidableEq

/-- `make_histogram(ieta, energy)`: bin `b` receives one count for every
collected hit with `hadenergy > energy` and `ieta == std::floor(eta / 0.085)`
whose phi falls in bin `b` (`binOf` models the `TH1D` bin assignment). -/
def make_histogram (binOf : ℚ → ℕ) (all : List hit) (ieta : ℤ) (energy : ℚ) :
    ℕ → ℕ :=
  fun b =>
    all.countP fun h =>
      decide (h.hadenergy > energy) && decide (ieta = ⌊h.eta / (17 / 200)⌋) &&
        (binOf h.phi == b)

/-- Accumulator of the loop in `stats::stats`: `max` and `maxphi` track the
most occupied non-ignored bin, `sum`/`sumsq` the first two moments.  `maxphi`
is an `int` member that the constructor never initializes; `none` stands for
its indeterminate initial value. -/
structure StatsAcc where
  max : ℕ
  maxphi : Option ℕ
  sum : ℕ
  sumsq : ℕ
  deriving DecidableEq

/-- State of the accumulator before the loop of `stats::stats` runs
(`int max = 0; double sum = 0; double sumsq = 0;`, `maxphi` uninitialized). -/
def statsInit : StatsAcc := ⟨0, none, 0, 0⟩

/-- One iteration of the loop in `stats::stats`: skip ignored bins, then for
bins with positive content accumulate the moments and update the running
maximum (strict comparison, so the first bin attaining the maximum wins). -/
def statsUpd (hist : ℕ → ℕ) (ignore : List ℕ) (acc : StatsAcc) (i : ℕ) :
    StatsAcc :=
  if i ∈ ignore then acc
  else if 0 < hist i then
    { sum := acc.sum + hist i
      sumsq := acc.sumsq + hist i * hist i
      max := if acc.max < hist i then hist i else acc.max
      maxphi := if acc.max < hist i then some i else acc.maxphi }
  else acc

/-- The loop of `stats::stats` over a list of bin indices. -/
def statsScan (hist : ℕ → ℕ) (ignore : List ℕ) :
    List ℕ → StatsAcc → StatsAcc
  | [], acc => acc
  | i :: is, acc => statsScan hist ignore is (statsUpd hist ignore acc i)

/-- The full loop of `stats::stats`: `for (int i = 1; i <= GetNbinsX(); ++i)`
with `GetNbinsX() = PHI_DIVS`. -/
def statsLoop (hist : ℕ → ℕ) (ignore : List ℕ) : StatsAcc :=
  statsScan hist ignore (List.range' 1 PHI_DIVS) statsInit

/-- Results of `stats::stats` (`struct stats`): the p-value and the most
occupied non-ignored bin. -/
structure Stats where
  pvalue : ℚ
  maxphi : Option ℕ
  deriving DecidableEq

/-- `int numgood = PHI_DIVS - ignore.size();` (machine `int` arithmetic,
which can go negative: modelled in `ℤ`). -/
def numgood (ignore : List ℕ) : ℤ := (PHI_DIVS : ℤ) - ignore.length

/-- `stats::stats(hits, ignore)`: runs the accumulation loop, then computes
`mean = sum / numgood`, `chi2 = sumsq / mean - numgood * mean` and
`pvalue = TMath::Prob(chi2, numgood - 1)`.  There is no guard of any kind:
the constructor always reaches the `Prob` call. -/
def stats (prob : ℚ → ℤ → ℚ) (hist : ℕ → ℕ) (ignore : List ℕ) : Stats :=
  let acc := statsLoop hist ignore
  let mean : ℚ := (acc.sum : ℚ) / ((numgood ignore : ℤ) : ℚ)
  let chi2 : ℚ := (acc.sumsq : ℚ) / mean - ((numgood ignore : ℤ) : ℚ) * mean
  { pvalue := prob chi2 (numgood ignore - 1), maxphi := acc.maxphi }

/-- The `while (s.pvalue < pvalue)` loop of `cost_function::getignored`,
with fuel.  `none` is returned when the loop would read the uninitialized
`maxphi` member (C++ undefined behaviour) or when fuel runs out; the fuel
`PHI_DIVS + 1` used by `getignored` is proved sufficient below. -/
def getignoredAux (prob : ℚ → ℤ → ℚ) (pvalue : ℚ) (hist : ℕ → ℕ) :
    ℕ → List ℕ → Option (List ℕ)
  | 0, _ => none
  | fuel + 1, ignore =>
    let s := stats prob hist ignore
    if s.pvalue < pvalue then
      match s.maxphi with
      | some m => getignoredAux prob pvalue hist fuel (ignore ++ [m])
      | none => none
    else
      some ignore

/-- `cost_function::getignored` at the level of an already-built histogram:
start from the empty exclusion list and iterate. -/
def getignored (prob : ℚ → ℤ → ℚ) (pvalue : ℚ) (hist : ℕ → ℕ) :
    Option (List ℕ) :=
  getignoredAux prob pvalue hist (PHI_DIVS + 1) []

/-- The exclusion list held by the loop of `cost_function::getignored` after
`k` iterations of its body (`some` only if the loop is still running after
`k` iterations, i.e. every earlier p-value was below the target and a most
occupied bin always existed). -/
def iterState (prob : ℚ → ℤ → ℚ) (pvalue : ℚ) (hist : ℕ → ℕ) :
    ℕ → Option (List ℕ)
  | 0 => some []
  | k + 1 =>
    match iterState prob pvalue hist k with
    | some ignore =>
      let s := stats prob hist ignore
      if s.pvalue < pvalue then
        match s.maxphi with
        | some m => some (ignore ++ [m])
        | none => none
      else none
    | none => none

/-- `cost_function::getignored(energy)`: build the histogram for the stored
`ieta` at cutoff `energy` and prune. -/
def cost_getignored (prob : ℚ → ℤ → ℚ) (binOf : ℚ → ℕ) (all : List hit)
    (ieta : ℤ) (pvalue : ℚ) (energy : ℚ) : Option (List ℕ) :=
  getignored prob pvalue (make_histogram binOf all ieta energy)

/-- `cost_function::operator()(energy)`:
`ignored - numhot + (ignored > numhot ? energy : -energy)` where `ignored`
is the size of the exclusion list (propagates `none` when the pruning run
hits undefined behaviour). -/
def cost_call (prob : ℚ → ℤ → ℚ) (binOf : ℚ → ℕ) (all : List hit)
    (ieta : ℤ) (pvalue : ℚ) (numhot : ℤ) (energy : ℚ) : Option ℚ :=
  (cost_getignored prob binOf all ieta pvalue energy).map fun ignored =>
    (((ignored.length : ℤ) - numhot : ℤ) : ℚ) +
      (if numhot < (ignored.length : ℤ) then energy else -energy)

/-- `std::ceil((root + 1e-3) * 100) / 100`: the rounding applied in
`results::results` to the root returned by the solver. -/
def round2up (root : ℚ) : ℚ := ((⌈(root + 1 / 1000) * 100⌉ : ℤ) : ℚ) / 100

/-- Per-band tail of the loop of `results::results`, given the root `root`
returned by the Brent solver: round the root up, rerun
`cost_function::getignored` at the rounded energy, and shift every excluded
bin index by `-PHI_DIVS / 2`. -/
def resultsStep (prob : ℚ → ℤ → ℚ) (binOf : ℚ → ℕ) (all : List hit)
    (ieta : ℤ) (pvalue : ℚ) (root : ℚ) : Option (ℚ × List ℤ) :=
  let energy := round2up root
  (cost_getignored prob binOf all ieta pvalue energy).map fun ignored =>
    (energy, ignored.map fun i => (i : ℤ) - (PHI_DIVS : ℤ) / 2)

/-- Model of the external collaborator `TMath::Prob(chi2, ndf)` (ROOT):
returns 0 for `ndf ≤ 0`, 0 for negative `chi2`, 1 for `chi2 = 0`, and
otherwise the chi-square upper tail `cdfc chi2 ndf`, kept abstract. -/
def ProbTM (cdfc : ℚ → ℤ → ℚ) (chi2 : ℚ) (ndf : ℤ) : ℚ :=
  if ndf ≤ 0 then 0
  else if chi2 ≤ 0 then (if chi2 < 0 then 0 else 1)
  else cdfc chi2 ndf

/-- Concrete chi-square tail used by witnesses and failing inputs: constant
0, the double-precision value of the true tail for astronomically large
`chi2` (all the tail values in the concrete runs below are below `10 ^ (-2)`
and most underflow to `0` in `double`). -/
def cdfc0 : ℚ → ℤ → ℚ := fun _ _ => 0

/-- `TMath::Prob` over the concrete tail `cdfc0`. -/
def prob0 : ℚ → ℤ → ℚ := ProbTM cdfc0

/-- A histogram with every bin positive and geometrically exploding counts:
bin `i` holds `4 ^ i` entries.  At every pruning stage the remaining counts
stay wildly non-uniform, so the true chi-square tail stays far below any
target p-value in `(0, 1]`. -/
def hist6 : ℕ → ℕ := fun i => if 1 ≤ i ∧ i ≤ 72 then 4 ^ i else 0

/-- A histogram with one hot bin: bin 1 holds 5 entries, bins 2..72 hold one
entry each. -/
def histW : ℕ → ℕ := fun i => if i = 1 then 5 else if 1 ≤ i ∧ i ≤ 72 then 1 else 0

/-- The all-zero histogram (no hit survives the cutoff). -/
def zeroHist : ℕ → ℕ := fun _ => 0

/-- A histogram whose only positive bin is bin 72 (with 4 entries). -/
def hist72 : ℕ → ℕ := fun i => if i = 72 then 4 else 0

/-- Degenerate binning used by concrete runs: every phi lands in bin 1. -/
def binOf1 : ℚ → ℕ := fun _ => 1

/-- A one-hit data set: eta `1/100` (eta bin 0), phi arbitrary, hadronic
energy 5. -/
def hitsW : List hit := [⟨1 / 100, 0, 5⟩]

/-- Configuration of the tool (`class config` of the config-file variant):
the target p-value and the per-eta-bin target hot-cell counts.  The C++
`int _numhot[ETA_DIVS]` array is represented by the association list of the
assignments performed, keyed by the already-offset index. -/
structure config where
  _pvalue : ℚ
  _numhot : List (ℤ × ℤ)
  deriving DecidableEq

/-- The config state before any line is processed (`_pvalue(0.01)`; the
`_numhot` array is left uninitialized by the constructor, so no entry is
recorded). -/
def cfg0 : config := { _pvalue := 1 / 100, _numhot := [] }

/-- Errors thrown by `config::config`.  `withLine n d` stands for
`std::runtime_error(errmsg(n, d))` — the message built by `config::errmsg`,
which prepends the line number — and `bare m` for a
`std::runtime_error(m)` thrown with a plain message. -/
inductive CfgErr where
  | withLine (linenb : ℕ) (descr : String)
  | bare (msg : String)
  deriving DecidableEq

/-- Outcome of running (part of) `config::config`: either the accumulated
config state or the thrown error. -/
inductive CfgRes where
  | ok (c : config)
  | err (e : CfgErr)
  deriving DecidableEq

/-- `config::errmsg(linenb, descr)`: formats `"line " << linenb << ": " << descr`. -/
def errmsg (linenb : ℕ) (descr : String) : String :=
  "line " ++ toString linenb ++ ": " ++ descr

/-- The message carried by a thrown error. -/
def renderErr : CfgErr → String
  | .withLine n d => errmsg n d
  | .bare m => m

/-- Whether an error message reports the originating line number, i.e. was
built through `config::errmsg` (the phrasing of the spec). -/
def reportsLineNumber : CfgErr → Bool
  | .withLine _ _ => true
  | .bare _ => false

/-- The word-collection loop of `config::config` keeps words until
`operator>>` yields an empty word (end of line) or a word starting with
`#`. -/
def tokOk (w : String) : Bool := !(w.isEmpty || w.front == '#')

/-- One iteration of the line loop of `config::config`, applied to the
whitespace-split words `ws` of the line numbered `linenb`.  `pd`/`pl` model
`config::strtod`/`config::strtol` (full-word numeric parses, `none` on
failure).  Mirrors the source: empty word lists are skipped; a word count
other than 2 is `"incomplete statement"`; a `pvalue` line parses the number
(error message built with `errmsg`) and range-checks it with a **plain**
`runtime_error`; any other line parses the eta bin (failures rethrown as
`"unknown parameter"` with `errmsg`), offsets it by `ETA_DIVS / 2`,
bounds-checks it (with `errmsg`), parses the count (with `errmsg`) and
rejects negative counts with a **plain** `runtime_error`. -/
def configLine (pd : String → Option ℚ) (pl : String → Option ℤ)
    (c : config) (linenb : ℕ) (ws : List String) : CfgRes :=
  match ws.takeWhile tokOk with
  | [] => .ok c
  | [w1, w2] =>
    if w1 = "pvalue" then
      match pd w2 with
      | none =>
        .err (.withLine linenb ("cannot interpret \x27" ++ w2 ++ "\x27 as a number"))
      | some v =>
        if v ≤ 0 ∨ 1 < v then .err (.bare ("pvalue must be in (0, 1]"))
        else .ok { c with _pvalue := v }
    else
      match pl w1 with
      | none =>
        .err (.withLine linenb ("unknown parameter \x27" ++ w1 ++ "\x27"))
      | some ieta0 =>
        if ieta0 + ETA_DIVS / 2 < 0 ∨ ETA_DIVS ≤ ieta0 + ETA_DIVS / 2 then
          .err (.withLine linenb ("ieta out of bounds"))
        else
          match pl w2 with
          | none =>
            .err (.withLine linenb ("cannot interpret \x27" ++ w2 ++ "\x27 as a number"))
          | some n =>
            if n < 0 then .err (.bare ("value must be positive"))
            else .ok { c with _numhot := (ieta0 + ETA_DIVS / 2, n) :: c._numhot }
  | _ => .err (.withLine linenb ("incomplete statement"))

/-- The line loop of `config::config` over a list of tokenized lines,
starting at line number `linenb`; the first thrown error aborts. -/
def configParse (pd : String → Option ℚ) (pl : String → Option ℤ) :
    ℕ → config → List (List String) → CfgRes
  | _, c, [] => .ok c
  | linenb, c, ws :: rest =>
    match configLine pd pl c linenb ws with
    | .ok c2 => configParse pd pl (linenb + 1) c2 rest
    | .err e => .err e

/-- `config::config(in)`: process all lines starting from line 1 and the
initial state. -/
def configRun (pd : String → Option ℚ) (pl : String → Option ℤ)
    (input : List (List String)) : CfgRes :=
  configParse pd pl 1 cfg0 input

/-- Numeric parses used by the concrete config runs: `pd0` fails on every
word, `pl0` parses the two integer words appearing in the failing input. -/
def pd0 : String → Option ℚ := fun _ => none

/-- Integer parse for the concrete config runs. -/
def pl0 : String → Option ℤ :=
  fun s => if s = "0" then some 0 else if s = "-1" then some (-1) else none

/-- Non-excluded bins with a positive count — the channels over which
`stats::stats` accumulates its sums (phrasing of the spec). -/
def goodPos (hist : ℕ → ℕ) (ignore : List ℕ) (i : ℕ) : Bool :=
  decide (i ∉ ignore ∧ 0 < hist i)

/-- Number of bins of `1..PHI_DIVS` not yet excluded: the quantity that
strictly decreases at every iteration of the pruning loop. -/
def freshCount (ig : List ℕ) : ℕ :=
  (List.range' 1 PHI_DIVS).countP fun i => decide (i ∉ ig)

/-- Invariant of the accumulation loop of `stats::stats` after processing
the bins of `procd`: the running `max` bounds every non-ignored processed
count, and when `maxphi` has been written it names the first processed
non-ignored bin attaining `max` (with positive count). -/
def MaxInv (hist : ℕ → ℕ) (ignore procd : List ℕ) (acc : StatsAcc) : Prop :=
  (∀ j ∈ procd, j ∉ ignore → hist j ≤ acc.max) ∧
  (acc.maxphi = none → acc.max = 0) ∧
  (∀ m, acc.maxphi = some m →
    m ∈ procd ∧ m ∉ ignore ∧ hist m = acc.max ∧ 0 < acc.max ∧
      ∀ j ∈ procd, j ∉ ignore → j < m → hist j < acc.max)

/-! ### Lemmas about the accumulation loop of `stats::stats` -/

theorem statsScan_sum (hist : ℕ → ℕ) (ignore : List ℕ) :
    ∀ (l : List ℕ) (acc : StatsAcc),
      (statsScan hist ignore l acc).sum =
        acc.sum + ((l.filter (goodPos hist ignore)).map hist).sum := by
  intro l
  induction l with
  | nil => intro acc; simp [statsScan]
  | cons i is ih =>
    intro acc
    simp only [statsScan]
    rw [ih]
    by_cases hmem : i ∈ ignore
    · have hg : goodPos hist ignore i = false := by simp [goodPos, hmem]
      simp [statsUpd, hmem, List.filter_cons, hg]
    · by_cases hpos : 0 < hist i
      · have hg : goodPos hist ignore i = true := by simp [goodPos, hmem, hpos]
        simp [statsUpd, hmem, hpos, List.filter_cons, hg]
        omega
      · have hg : goodPos hist ignore i = false := by simp [goodPos, hmem, hpos]
        simp [statsUpd, hmem, hpos, List.filter_cons, hg]

theorem statsScan_sumsq (hist : ℕ → ℕ) (ignore : List ℕ) :
    ∀ (l : List ℕ) (acc : StatsAcc),
      (statsScan hist ignore l acc).sumsq =
        acc.sumsq + ((l.filter (goodPos hist ignore)).map fun i => hist i * hist i).sum := by
  intro l
  induction l with
  | nil => intro acc; simp [statsScan]
  | cons i is ih =>
    intro acc
    simp only [statsScan]
    rw [ih]
    by_cases hmem : i ∈ ignore
    · have hg : goodPos hist ignore i = false := by simp [goodPos, hmem]
      simp [statsUpd, hmem, List.filter_cons, hg]
    · by_cases hpos : 0 < hist i
      · have hg : goodPos hist ignore i = true := by simp [goodPos, hmem, hpos]
        simp [statsUpd, hmem, hpos, List.filter_cons, hg]
        omega
      · have hg : goodPos hist ignore i = false := by simp [goodPos, hmem, hpos]
        simp [statsUpd, hmem, hpos, List.filter_cons, hg]

theorem maxInv_upd (hist : ℕ → ℕ) (ignore procd : List ℕ) (acc : StatsAcc)
    (i : ℕ) (hlt : ∀ j ∈ procd, j < i) (H : MaxInv hist ignore procd acc) :
    MaxInv hist ignore (procd ++ [i]) (statsUpd hist ignore acc i) := by
  obtain ⟨H1, H2, H3⟩ := H
  by_cases hmem : i ∈ ignore
  · have hupd : statsUpd hist ignore acc i = acc := by simp [statsUpd, hmem]
    rw [hupd]
    refine ⟨?_, H2, ?_⟩
    · intro j hj hjig
      rcases List.mem_append.1 hj with hj | hj
      · exact H1 j hj hjig
      · rw [List.mem_singleton.1 hj] at hjig
        exact absurd hmem hjig
    · intro m hm
      obtain ⟨q1, q2, q3, q4, q5⟩ := H3 m hm
      refine ⟨List.mem_append_left _ q1, q2, q3, q4, ?_⟩
      intro j hj hjig hjm
      rcases List.mem_append.1 hj with hj | hj
      · exact q5 j hj hjig hjm
      · rw [List.mem_singleton.1 hj] at hjig
        exact absurd hmem hjig
  · by_cases hpos : 0 < hist i
    · by_cases hgt : acc.max < hist i
      · have h1 : (statsUpd hist ignore acc i).max = hist i := by
          simp [statsUpd, hmem, hpos, hgt]
        have h2 : (statsUpd hist ignore acc i).maxphi = some i := by
          simp [statsUpd, hmem, hpos, hgt]
        refine ⟨?_, ?_, ?_⟩
        · intro j hj hjig
          rw [h1]
          rcases List.mem_append.1 hj with hj | hj
          · exact le_of_lt (lt_of_le_of_lt (H1 j hj hjig) hgt)
          · rw [List.mem_singleton.1 hj]
        · intro hnone
          rw [h2] at hnone
          exact absurd hnone (by simp)
        · intro m hm
          rw [h2] at hm
          have hmi : m = i := by injection hm with h; exact h.symm
          subst hmi
          refine ⟨List.mem_append_right _ (List.mem_singleton_self _), hmem,
            h1.symm, by rw [h1]; exact hpos, ?_⟩
          intro j hj hjig hji
          rw [h1]
          rcases List.mem_append.1 hj with hj | hj
          · exact lt_of_le_of_lt (H1 j hj hjig) hgt
          · rw [List.mem_singleton.1 hj] at hji
            exact absurd hji (lt_irrefl _)
      · have h1 : (statsUpd hist ignore acc i).max = acc.max := by
          simp [statsUpd, hmem, hpos, hgt]
        have h2 : (statsUpd hist ignore acc i).maxphi = acc.maxphi := by
          simp [statsUpd, hmem, hpos, hgt]
        refine ⟨?_, ?_, ?_⟩
        · intro j hj hjig
          rw [h1]
          rcases List.mem_append.1 hj with hj | hj
          · exact H1 j hj hjig
          · rw [List.mem_singleton.1 hj]
            exact not_lt.1 hgt
        · intro hnone
          rw [h2] at hnone
          rw [h1]
          exact H2 hnone
        · intro m hm
          rw [h2] at hm
          obtain ⟨q1, q2, q3, q4, q5⟩ := H3 m hm
          rw [h1]
          refine ⟨List.mem_append_left _ q1, q2, q3, q4, ?_⟩
          intro j hj hjig hjm
          rcases List.mem_append.1 hj with hj | hj
          · exact q5 j hj hjig hjm
          · have hji : j = i := List.mem_singleton.1 hj
            have : m < i := hlt m q1
            omega
    · have hupd : statsUpd hist ignore acc i = acc := by simp [statsUpd, hmem, hpos]
      have hzero : hist i = 0 := by omega
      rw [hupd]
      refine ⟨?_, H2, ?_⟩
      · intro j hj hjig
        rcases List.mem_append.1 hj with hj | hj
        · exact H1 j hj hjig
        · rw [List.mem_singleton.1 hj, hzero]
          exact Nat.zero_le _
      · intro m hm
        obtain ⟨q1, q2, q3, q4, q5⟩ := H3 m hm
        refine ⟨List.mem_append_left _ q1, q2, q3, q4, ?_⟩
        intro j hj hjig hjm
        rcases List.mem_append.1 hj with hj | hj
        · exact q5 j hj hjig hjm
        · rw [List.mem_singleton.1 hj, hzero]
          exact q4

theorem statsScan_maxInv (hist : ℕ → ℕ) (ignore : List ℕ) :
    ∀ (l procd : List ℕ) (acc : StatsAcc),
      (∀ x ∈ l, ∀ j ∈ procd, j < x) → l.Pairwise (· < ·) →
      MaxInv hist ignore procd acc →
      MaxInv hist ignore (procd ++ l) (statsScan hist ignore l acc) := by
  intro l
  induction l with
  | nil => intro procd acc _ _ H; simpa [statsScan] using H
  | cons i is ih =>
    intro procd acc hcross hpw H
    simp only [statsScan]
    have hstep : MaxInv hist ignore (procd ++ [i]) (statsUpd hist ignore acc i) :=
      maxInv_upd hist ignore procd acc i
        (fun j hj => hcross i (List.mem_cons_self _ _) j hj) H
    have hcross2 : ∀ x ∈ is, ∀ j ∈ procd ++ [i], j < x := by
      intro x hx j hj
      rcases List.mem_append.1 hj with hj | hj
      · exact hcross x (List.mem_cons_of_mem _ hx) j hj
      · rw [List.mem_singleton.1 hj]
        exact (List.pairwise_cons.1 hpw).1 x hx
    have h2 := ih (procd ++ [i]) (statsUpd hist ignore acc i) hcross2
      (List.pairwise_cons.1 hpw).2 hstep
    simpa [List.append_assoc] using h2

theorem statsLoop_maxInv (hist : ℕ → ℕ) (ignore : List ℕ) :
    MaxInv hist ignore (List.range' 1 PHI_DIVS) (statsLoop hist ignore) := by
  have h := statsScan_maxInv hist ignore (List.range' 1 PHI_DIVS) [] statsInit
    (by intro x _ j hj; exact absurd hj (List.not_mem_nil _))
    (List.pairwise_lt_range' 1 PHI_DIVS)
    ⟨by intro j hj; exact absurd hj (List.not_mem_nil _),
     fun _ => rfl,
     by intro m hm; exact absurd hm (by simp [statsInit])⟩
  simpa [statsLoop] using h

theorem statsLoop_maxphi_some (hist : ℕ → ℕ) (ignore : List ℕ) (m : ℕ)
    (h : (statsLoop hist ignore).maxphi = some m) :
    m ∈ List.range' 1 PHI_DIVS ∧ m ∉ ignore ∧ 0 < hist m ∧
      (∀ j ∈ List.range' 1 PHI_DIVS, j ∉ ignore → hist j ≤ hist m) ∧
      (∀ j ∈ List.range' 1 PHI_DIVS, j ∉ ignore → j < m → hist j < hist m) := by
  obtain ⟨H1, _, H3⟩ := statsLoop_maxInv hist ignore
  obtain ⟨q1, q2, q3, q4, q5⟩ := H3 m h
  refine ⟨q1, q2, by omega, ?_, ?_⟩
  · intro j hj hjig
    have := H1 j hj hjig
    omega
  · intro j hj hjig hjm
    have := q5 j hj hjig hjm
    omega

theorem statsLoop_maxphi_none (hist : ℕ → ℕ) (ignore : List ℕ)
    (h : (statsLoop hist ignore).maxphi = none) :
    ∀ j ∈ List.range' 1 PHI_DIVS, j ∉ ignore → hist j = 0 := by
  obtain ⟨H1, H2, _⟩ := statsLoop_maxInv hist ignore
  intro j hj hjig
  have := H1 j hj hjig
  rw [H2 h] at this
  omega

theorem statsLoop_maxphi_intro (hist : ℕ → ℕ) (ignore : List ℕ) (m : ℕ)
    (hm : m ∈ List.range' 1 PHI_DIVS) (hmig : m ∉ ignore) (hpos : 0 < hist m)
    (hmax : ∀ j ∈ List.range' 1 PHI_DIVS, j ∉ ignore → hist j ≤ hist m)
    (hstrict : ∀ j ∈ List.range' 1 PHI_DIVS, j ∉ ignore → j < m → hist j < hist m) :
    (statsLoop hist ignore).maxphi = some m := by
  cases h : (statsLoop hist ignore).maxphi with
  | none =>
    have := statsLoop_maxphi_none hist ignore h m hm hmig
    omega
  | some m2 =>
    obtain ⟨hm2, hm2ig, hp2, hmax2, hstrict2⟩ := statsLoop_maxphi_some hist ignore m2 h
    have e1 : hist m2 ≤ hist m := hmax m2 hm2 hm2ig
    have e2 : hist m ≤ hist m2 := hmax2 m hm hmig
    rcases Nat.lt_trichotomy m m2 with hlt | heq | hgt
    · have := hstrict2 m hm hmig hlt
      omega
    · rw [heq]
    · have := hstrict m2 hm2 hm2ig hgt
      omega

theorem stats_maxphi_eq (prob : ℚ → ℤ → ℚ) (hist : ℕ → ℕ) (ignore : List ℕ) :
    (stats prob hist ignore).maxphi = (statsLoop hist ignore).maxphi := rfl
/-! ### Lemmas about the pruning loop of `cost_function::getignored` -/

theorem getignoredAux_spec (prob : ℚ → ℤ → ℚ) (pv : ℚ) (hist : ℕ → ℕ) :
    ∀ (fuel : ℕ) (ig l : List ℕ),
      getignoredAux prob pv hist fuel ig = some l →
      (∃ t, l = ig ++ t) ∧ pv ≤ (stats prob hist l).pvalue ∧
        ∀ k, ig.length ≤ k → ∀ hk : k < l.length,
          (stats prob hist (l.take k)).pvalue < pv ∧
            (stats prob hist (l.take k)).maxphi = some (l.get ⟨k, hk⟩) := by
  intro fuel
  induction fuel with
  | zero => intro ig l h; exact absurd h (by simp [getignoredAux])
  | succ n ih =>
    intro ig l h
    simp only [getignoredAux] at h
    by_cases hc : (stats prob hist ig).pvalue < pv
    · rw [if_pos hc] at h
      cases hm : (stats prob hist ig).maxphi with
      | none => rw [hm] at h; exact absurd h (by simp)
      | some m =>
        rw [hm] at h
        obtain ⟨⟨t, ht⟩, hfin, hks⟩ := ih (ig ++ [m]) l h
        have hl : l = ig ++ m :: t := by rw [ht, List.append_assoc]; rfl
        subst hl
        refine ⟨⟨m :: t, rfl⟩, hfin, ?_⟩
        intro k hk hkl
        rcases eq_or_lt_of_le hk with heq | hlt
        · subst heq
          have htake : (ig ++ m :: t).take ig.length = ig := List.take_left ig (m :: t)
          have hget : (ig ++ m :: t).get ⟨ig.length, hkl⟩ = m := by
            rw [List.get_eq_getElem, List.getElem_append_right (Nat.le_refl _)]
            simp
          rw [htake, hget]
          exact ⟨hc, hm⟩
        · exact hks k (by simpa using hlt) hkl
    · rw [if_neg hc] at h
      have hl : l = ig := by injection h with h2; exact h2.symm
      subst hl
      refine ⟨⟨[], by simp⟩, not_lt.1 hc, ?_⟩
      intro k hk hkl
      omega

theorem countP_erase_one (ig : List ℕ) (m : ℕ) (hmig : m ∉ ig) :
    ∀ l : List ℕ, l.Nodup → m ∈ l →
      (l.countP fun i => decide (i ∉ ig ++ [m])) + 1 =
        l.countP fun i => decide (i ∉ ig) := by
  intro l
  induction l with
  | nil => intro _ hm; exact absurd hm (List.not_mem_nil _)
  | cons x xs ih =>
    intro hnd hm
    have hnd2 := List.nodup_cons.1 hnd
    rw [List.countP_cons, List.countP_cons]
    by_cases hxm : x = m
    · subst hxm
      have hxnot : x ∉ xs := hnd2.1
      have hcongr : (xs.countP fun i => decide (i ∉ ig ++ [x])) =
          xs.countP fun i => decide (i ∉ ig) := by
        apply List.countP_congr
        intro i hi
        have hne : i ≠ x := fun he => hxnot (he ▸ hi)
        simp [List.mem_append, hne]
      have hp1 : decide (x ∉ ig ++ [x]) = false := by
        simp [List.mem_append]
      have hp2 : decide (x ∉ ig) = true := by simp [hmig]
      rw [hcongr, hp1, hp2]
      simp
    · have hm2 : m ∈ xs := by
        rcases List.mem_cons.1 hm with he | hm2
        · exact absurd he.symm hxm
        · exact hm2
      have hpx : decide (x ∉ ig ++ [m]) = decide (x ∉ ig) := by
        simp [List.mem_append, hxm]
      rw [hpx]
      have hrec := ih hnd2.2 hm2
      omega

theorem freshCount_append (ig : List ℕ) (m : ℕ)
    (hm : m ∈ List.range' 1 PHI_DIVS) (hmig : m ∉ ig) :
    freshCount (ig ++ [m]) + 1 = freshCount ig :=
  countP_erase_one ig m hmig (List.range' 1 PHI_DIVS)
    (List.nodup_range' 1 PHI_DIVS) hm

theorem getignoredAux_fuel_congr (prob : ℚ → ℤ → ℚ) (pv : ℚ) (hist : ℕ → ℕ) :
    ∀ (f1 : ℕ) (ig : List ℕ) (f2 : ℕ), freshCount ig < f1 → freshCount ig < f2 →
      getignoredAux prob pv hist f1 ig = getignoredAux prob pv hist f2 ig := by
  intro f1
  induction f1 with
  | zero => intro ig f2 h1 _; omega
  | succ n ih =>
    intro ig f2 h1 h2
    cases f2 with
    | zero => omega
    | succ g =>
      simp only [getignoredAux]
      by_cases hc : (stats prob hist ig).pvalue < pv
      · rw [if_pos hc, if_pos hc]
        cases hm : (stats prob hist ig).maxphi with
        | none => rfl
        | some m =>
          have hms := statsLoop_maxphi_some hist ig m hm
          have hfc := freshCount_append ig m hms.1 hms.2.1
          exact ih (ig ++ [m]) g (by omega) (by omega)
      · rw [if_neg hc, if_neg hc]

theorem getignored_fuel (prob : ℚ → ℤ → ℚ) (pv : ℚ) (hist : ℕ → ℕ)
    (f : ℕ) (hf : PHI_DIVS + 1 ≤ f) :
    getignoredAux prob pv hist f [] = getignored prob pv hist := by
  have h72 : freshCount [] = PHI_DIVS := by decide
  exact getignoredAux_fuel_congr prob pv hist f [] (PHI_DIVS + 1)
    (by omega) (by omega)

theorem iterState_getignoredAux (prob : ℚ → ℤ → ℚ) (pv : ℚ) (hist : ℕ → ℕ) :
    ∀ (k : ℕ) (ig : List ℕ), iterState prob pv hist k = some ig →
      ∀ fuel, getignoredAux prob pv hist (k + fuel) [] =
        getignoredAux prob pv hist fuel ig := by
  intro k
  induction k with
  | zero =>
    intro ig h fuel
    have hig : ig = [] := by injection h with h2; exact h2.symm
    subst hig
    rw [Nat.zero_add]
  | succ n ih =>
    intro ig h fuel
    cases hprev : iterState prob pv hist n with
    | none =>
      simp only [iterState, hprev] at h
      exact Option.noConfusion h
    | some ig0 =>
      simp only [iterState, hprev] at h
      by_cases hc : (stats prob hist ig0).pvalue < pv
      · rw [if_pos hc] at h
        cases hm : (stats prob hist ig0).maxphi with
        | none => rw [hm] at h; exact absurd h (by simp)
        | some m =>
          rw [hm] at h
          have hig : ig = ig0 ++ [m] := by injection h with h2; exact h2.symm
          subst hig
          have h1 : n + 1 + fuel = n + (fuel + 1) := by omega
          rw [h1, ih ig0 hprev (fuel + 1)]
          simp only [getignoredAux]
          rw [if_pos hc, hm]
      · rw [if_neg hc] at h
        exact absurd h (by simp)

/-! ### Lemmas about the cost function -/

theorem cost_call_eq (prob : ℚ → ℤ → ℚ) (binOf : ℚ → ℕ) (all : List hit)
    (ieta : ℤ) (pv : ℚ) (numhot : ℤ) (E : ℚ) (l : List ℕ)
    (h : cost_getignored prob binOf all ieta pv E = some l) :
    cost_call prob binOf all ieta pv numhot E =
      some ((((l.length : ℤ) - numhot : ℤ) : ℚ) +
        (if numhot < (l.length : ℤ) then E else -E)) := by
  simp [cost_call, h]
theorem resultsStep_some (prob : ℚ → ℤ → ℚ) (binOf : ℚ → ℕ) (all : List hit)
    (ieta : ℤ) (pv : ℚ) (root e : ℚ) (hc : List ℤ)
    (h : resultsStep prob binOf all ieta pv root = some (e, hc)) :
    e = round2up root ∧
      ∃ ig, cost_getignored prob binOf all ieta pv (round2up root) = some ig ∧
        hc = ig.map fun i => (i : ℤ) - (PHI_DIVS : ℤ) / 2 := by
  simp only [resultsStep] at h
  cases hg : cost_getignored prob binOf all ieta pv (round2up root) with
  | none => rw [hg] at h; exact absurd h (by simp)
  | some ig =>
    rw [hg] at h
    simp only [Option.map_some'] at h
    have h2 := Option.some.inj h
    rw [Prod.ext_iff] at h2
    exact ⟨h2.1.symm, ig, rfl, h2.2.symm⟩

/-! ### Claim theorems -/

/-- C1: `cost_function::getignored` implements exactly the stated greedy
algorithm: starting from the empty excluded set it repeatedly runs the
uniformity test; as soon as the p-value reaches the target it stops and
returns the current set; otherwise it appends the single most-occupied
non-excluded channel (strictly largest count among non-excluded
positive-count channels, first-encountered wins ties) and repeats, each
iteration adding exactly one channel.  The returned set is therefore the
minimal-size set along the greedy chain meeting the target: every proper
prefix of the result still fails the target. -/
theorem getignored_greedy_spec (prob : ℚ → ℤ → ℚ) (pv : ℚ) (hist : ℕ → ℕ)
    (l : List ℕ) (h : getignored prob pv hist = some l) :
    pv ≤ (stats prob hist l).pvalue ∧
      ∀ k, ∀ hk : k < l.length,
        (stats prob hist (l.take k)).pvalue < pv ∧
          (stats prob hist (l.take k)).maxphi = some (l.get ⟨k, hk⟩) ∧
          l.get ⟨k, hk⟩ ∈ List.range' 1 PHI_DIVS ∧
          l.get ⟨k, hk⟩ ∉ l.take k ∧ 0 < hist (l.get ⟨k, hk⟩) ∧
          (∀ j ∈ List.range' 1 PHI_DIVS, j ∉ l.take k →
            hist j ≤ hist (l.get ⟨k, hk⟩)) ∧
          (∀ j ∈ List.range' 1 PHI_DIVS, j ∉ l.take k → j < l.get ⟨k, hk⟩ →
            hist j < hist (l.get ⟨k, hk⟩)) := by
  obtain ⟨_, hfin, hks⟩ := getignoredAux_spec prob pv hist (PHI_DIVS + 1) [] l h
  refine ⟨hfin, ?_⟩
  intro k hk
  obtain ⟨hpv, hmax⟩ := hks k (Nat.zero_le _) hk
  have hchar := statsLoop_maxphi_some hist (l.take k) (l.get ⟨k, hk⟩)
    (by rw [← stats_maxphi_eq prob]; exact hmax)
  exact ⟨hpv, hmax, hchar.1, hchar.2.1, hchar.2.2.1, hchar.2.2.2.1,
    hchar.2.2.2.2⟩

set_option maxRecDepth 1000000 in
unseal Rat.add Rat.sub Rat.mul Rat.inv in
/-- Witness for C1: on the one-hot histogram `histW` with target p-value
1/2 the pruner returns exactly `[1]`; the theorem applies and yields that
the final set passes while the empty prefix fails. -/
theorem getignored_greedy_spec_app :
    getignored prob0 (1/2) histW = some [1] ∧
      (1/2 : ℚ) ≤ (stats prob0 histW [1]).pvalue ∧
      (stats prob0 histW []).pvalue < 1/2 := by
  have h : getignored prob0 (1/2) histW = some [1] := by decide
  have h2 := getignored_greedy_spec prob0 (1/2) histW [1] h
  refine ⟨h, h2.1, ?_⟩
  have h3 := (h2.2 0 (by simp)).1
  simpa using h3

/-- C2: `stats::stats` accumulates `sum` and `sumsq` over exactly the
non-excluded channels with positive count, sets `numgood` to
`PHI_DIVS - |ignore|` (zero-count channels count as good), and computes
the p-value as the survival function applied to the chi-square statistic
`sumsq / mean - numgood * mean` (with `mean = sum / numgood`) at
`numgood - 1` degrees of freedom. -/
theorem stats_components (prob : ℚ → ℤ → ℚ) (hist : ℕ → ℕ) (ignore : List ℕ) :
    (statsLoop hist ignore).sum =
        (((List.range' 1 PHI_DIVS).filter (goodPos hist ignore)).map hist).sum ∧
      (statsLoop hist ignore).sumsq =
        (((List.range' 1 PHI_DIVS).filter (goodPos hist ignore)).map
          fun i => hist i * hist i).sum ∧
      numgood ignore = (PHI_DIVS : ℤ) - ignore.length ∧
      (stats prob hist ignore).pvalue =
        prob (((statsLoop hist ignore).sumsq : ℚ) /
            (((statsLoop hist ignore).sum : ℚ) / ((numgood ignore : ℤ) : ℚ)) -
          ((numgood ignore : ℤ) : ℚ) *
            (((statsLoop hist ignore).sum : ℚ) / ((numgood ignore : ℤ) : ℚ)))
          (numgood ignore - 1) := by
  refine ⟨?_, ?_, rfl, rfl⟩
  · have h := statsScan_sum hist ignore (List.range' 1 PHI_DIVS) statsInit
    simpa [statsLoop, statsInit] using h
  · have h := statsScan_sumsq hist ignore (List.range' 1 PHI_DIVS) statsInit
    simpa [statsLoop, statsInit] using h

/-- C3: the scalar cost of `cost_function::operator()` evaluates to
`excludedCount - numhot + energy` when `excludedCount > numhot`, and to
`excludedCount - numhot - energy` otherwise. -/
theorem cost_value_formula (prob : ℚ → ℤ → ℚ) (binOf : ℚ → ℕ) (all : List hit)
    (ieta : ℤ) (pv : ℚ) (numhot : ℤ) (E : ℚ) (l : List ℕ)
    (h : cost_getignored prob binOf all ieta pv E = some l) :
    cost_call prob binOf all ieta pv numhot E =
      some (if numhot < (l.length : ℤ)
        then (l.length : ℚ) - (numhot : ℚ) + E
        else (l.length : ℚ) - (numhot : ℚ) - E) := by
  rw [cost_call_eq prob binOf all ieta pv numhot E l h]
  congr 1
  by_cases hlt : numhot < (l.length : ℤ)
  · rw [if_pos hlt, if_pos hlt]
    push_cast
    ring
  · rw [if_neg hlt, if_neg hlt]
    push_cast
    ring

set_option maxRecDepth 1000000 in
unseal Rat.add Rat.sub Rat.mul Rat.inv in
/-- Witness for C3: with no collected hits all histograms are empty, the
pruner excludes nothing, and at `numhot = 0`, `E = 1` the cost is
`0 - 0 - 1 = -1`. -/
theorem cost_value_formula_app :
    cost_getignored prob0 binOf1 [] 0 (1/2) 1 = some [] ∧
      cost_call prob0 binOf1 [] 0 (1/2) 0 1 = some (-1) := by
  have h : cost_getignored prob0 binOf1 [] 0 (1/2) 1 = some [] := by decide
  have h2 := cost_value_formula prob0 binOf1 [] 0 (1/2) 0 1 [] h
  refine ⟨h, ?_⟩
  rw [h2]
  norm_num

/-- C10: for every energy `E > 0`, the cost is strictly positive exactly
when the excluded count exceeds the target, strictly negative exactly when
it does not, and never zero — so a bracketed root can only sit at the
discontinuity where the excluded count crosses the target. -/
theorem cost_sign_characterization (prob : ℚ → ℤ → ℚ) (binOf : ℚ → ℕ)
    (all : List hit) (ieta : ℤ) (pv : ℚ) (numhot : ℤ) (E : ℚ) (l : List ℕ)
    (c : ℚ) (hE : 0 < E)
    (h : cost_getignored prob binOf all ieta pv E = some l)
    (hcall : cost_call prob binOf all ieta pv numhot E = some c) :
    (0 < c ↔ numhot < (l.length : ℤ)) ∧
      (c < 0 ↔ (l.length : ℤ) ≤ numhot) ∧ c ≠ 0 := by
  rw [cost_call_eq prob binOf all ieta pv numhot E l h] at hcall
  have hceq : c = (((l.length : ℤ) - numhot : ℤ) : ℚ) +
      (if numhot < (l.length : ℤ) then E else -E) :=
    (Option.some.inj hcall).symm
  by_cases hlt : numhot < (l.length : ℤ)
  · rw [if_pos hlt] at hceq
    have h1 : (1 : ℚ) ≤ (((l.length : ℤ) - numhot : ℤ) : ℚ) := by
      have h2 : (1 : ℤ) ≤ (l.length : ℤ) - numhot := by omega
      exact_mod_cast h2
    have hpos : 0 < c := by rw [hceq]; linarith
    refine ⟨⟨fun _ => hlt, fun _ => hpos⟩, ?_, ne_of_gt hpos⟩
    constructor
    · intro hneg; exact absurd hneg (not_lt.2 (le_of_lt hpos))
    · intro hle; exact absurd hlt (not_lt.2 hle)
  · rw [if_neg hlt] at hceq
    have hle : (l.length : ℤ) ≤ numhot := not_lt.1 hlt
    have h1 : (((l.length : ℤ) - numhot : ℤ) : ℚ) ≤ 0 := by
      have h2 : (l.length : ℤ) - numhot ≤ 0 := by omega
      exact_mod_cast h2
    have hneg : c < 0 := by rw [hceq]; linarith
    refine ⟨?_, ⟨fun _ => hle, fun _ => hneg⟩, ne_of_lt hneg⟩
    constructor
    · intro hgt; exact absurd hgt (not_lt.2 (le_of_lt hneg))
    · intro hgt2; exact absurd hgt2 hlt

set_option maxRecDepth 1000000 in
unseal Rat.add Rat.sub Rat.mul Rat.inv in
/-- Witness for C10: the empty-data run of the C3 witness, where the
excluded count 0 does not exceed the target 0 and the cost `-1` is
strictly negative. -/
theorem cost_sign_characterization_app :
    ((0 : ℚ) < (-1 : ℚ) ↔ (0 : ℤ) < (([] : List ℕ).length : ℤ)) ∧
      ((-1 : ℚ) < 0 ↔ ((([] : List ℕ).length : ℤ) ≤ 0)) ∧ (-1 : ℚ) ≠ 0 := by
  exact cost_sign_characterization prob0 binOf1 [] 0 (1/2) 0 1 [] (-1)
    (by norm_num) (by decide) (by decide)

/-- C4: once the solver returns `root`, the engine stores the threshold
`ceil((root + 1e-3) * 100) / 100` and recomputes the excluded channels by
running the pruner once more at that rounded threshold (not at `root`),
shifting every channel index by `-PHI_DIVS / 2`. -/
theorem results_round_and_recompute (prob : ℚ → ℤ → ℚ) (binOf : ℚ → ℕ)
    (all : List hit) (ieta : ℤ) (pv : ℚ) (root e : ℚ) (hcells : List ℤ)
    (h : resultsStep prob binOf all ieta pv root = some (e, hcells)) :
    e = ((⌈(root + 1 / 1000) * 100⌉ : ℤ) : ℚ) / 100 ∧
      ∃ ig, cost_getignored prob binOf all ieta pv
          (((⌈(root + 1 / 1000) * 100⌉ : ℤ) : ℚ) / 100) = some ig ∧
        hcells = ig.map fun i => (i : ℤ) - (PHI_DIVS : ℤ) / 2 := by
  obtain ⟨he, ig, hg, hh⟩ := resultsStep_some prob binOf all ieta pv root e hcells h
  exact ⟨he, ig, hg, hh⟩

set_option maxRecDepth 1000000 in
unseal Rat.add Rat.sub Rat.mul Rat.inv in
/-- Witness for C4: the one-hit data set at root 0 stores threshold
`0.01 = ceil((0 + 1e-3) * 100) / 100` and the recomputed exclusion
`[1 - 36] = [-35]`. -/
theorem results_round_and_recompute_app :
    resultsStep prob0 binOf1 hitsW 0 (1/2) 0 = some (1/100, [-35]) ∧
      (1/100 : ℚ) = ((⌈((0 : ℚ) + 1/1000) * 100⌉ : ℤ) : ℚ) / 100 := by
  have h : resultsStep prob0 binOf1 hitsW 0 (1/2) 0 = some (1/100, [-35]) := by
    decide
  exact ⟨h,
    (results_round_and_recompute prob0 binOf1 hitsW 0 (1/2) 0 (1/100) [-35] h).1⟩

/-- C8 (amended): for an accepted root anywhere in the solver bracket
`[0, 10]`, the stored threshold lies in `[0.01, 10.01]`: it is strictly
inside the bracket at the lower end but the upward-biased rounding can push
it up to `0.01` beyond the upper search bound `Emax = 10`. -/
theorem threshold_bounds_amended (prob : ℚ → ℤ → ℚ) (binOf : ℚ → ℕ)
    (all : List hit) (ieta : ℤ) (pv : ℚ) (root e : ℚ) (hcells : List ℤ)
    (h : resultsStep prob binOf all ieta pv root = some (e, hcells))
    (h0 : 0 ≤ root) (h10 : root ≤ 10) :
    1/100 ≤ e ∧ e ≤ 1001/100 := by
  have he := (resultsStep_some prob binOf all ieta pv root e hcells h).1
  have hlow : (1 : ℤ) ≤ ⌈(root + 1 / 1000) * 100⌉ := by
    have hpos : (0 : ℚ) < (root + 1 / 1000) * 100 := by nlinarith
    have := Int.ceil_pos.2 hpos
    omega
  have hhigh : ⌈(root + 1 / 1000) * 100⌉ ≤ 1001 := by
    rw [Int.ceil_le]
    push_cast
    nlinarith
  have hlowq : (1 : ℚ) ≤ ((⌈(root + 1 / 1000) * 100⌉ : ℤ) : ℚ) := by
    exact_mod_cast hlow
  have hhighq : ((⌈(root + 1 / 1000) * 100⌉ : ℤ) : ℚ) ≤ 1001 := by
    exact_mod_cast hhigh
  rw [he, round2up]
  constructor
  · linarith
  · linarith

set_option maxRecDepth 1000000 in
unseal Rat.add Rat.sub Rat.mul Rat.inv in
/-- Witness for C8 (amended): the accepted root 5 stores a threshold inside
`[0.01, 10.01]`. -/
theorem threshold_bounds_amended_app :
    1/100 ≤ (501/100 : ℚ) ∧ (501/100 : ℚ) ≤ 1001/100 := by
  exact threshold_bounds_amended prob0 binOf1 [] 0 (1/2) 5 (501/100) []
    (by decide) (by norm_num) (by norm_num)

set_option maxRecDepth 1000000 in
unseal Rat.add Rat.sub Rat.mul Rat.inv in
/-- C8 counterexample: the root `9.9995` lies inside the solver bracket
`[0, 10]`, yet the engine stores the threshold `10.01`, outside `[0, 10]` —
so an accepted calibration can carry a threshold beyond the search bounds. -/
theorem threshold_outside_bounds_cex :
    ((0 : ℚ) ≤ 19999/2000 ∧ (19999/2000 : ℚ) ≤ 10) ∧
      resultsStep prob0 binOf1 [] 0 (1/2) (19999/2000) = some (1001/100, []) ∧
      ¬((1001/100 : ℚ) ≤ 10) := by
  refine ⟨by decide, by decide, by decide⟩
/-- C5 (code bug): the uniformity test performs no degeneracy check at all.
With the all-zero histogram (`mean = 0`, as when no hit survives the
cutoff) it still evaluates the statistic — dividing by the zero mean — and
calls the survival function at 71 degrees of freedom; with 71 excluded
channels (`numgood = 1`) it calls the survival function at 0 degrees of
freedom.  In the C++ both runs reach `TMath::Prob` (through `0.0/0.0`,
i.e. NaN, in the first case); no `DegenerateHistogramError` or any other
signal exists anywhere in the program. -/
theorem stats_degenerate_unguarded (prob : ℚ → ℤ → ℚ) :
    (stats prob zeroHist []).pvalue = prob 0 71 ∧
      numgood [] = 72 ∧
      ((statsLoop zeroHist []).sum : ℚ) / ((numgood [] : ℤ) : ℚ) = 0 ∧
      (stats prob hist72 (List.range' 1 71)).pvalue = prob 0 0 ∧
      numgood (List.range' 1 71) = 1 := by
  have h1 : statsLoop zeroHist [] = statsInit := by decide
  have h2 : statsLoop hist72 (List.range' 1 71) = ⟨4, some 72, 4, 16⟩ := by decide
  have hn1 : numgood [] = 72 := by decide
  have hn2 : numgood (List.range' 1 71) = 1 := by decide
  refine ⟨?_, hn1, ?_, ?_, hn2⟩
  · show prob _ _ = prob 0 71
    simp only [stats, h1, hn1, statsInit]
    norm_num
  · rw [h1, hn1]
    norm_num [statsInit]
  · show prob _ _ = prob 0 0
    simp only [stats, h2, hn2]
    norm_num

set_option maxRecDepth 1000000 in
set_option maxHeartbeats 4000000 in
unseal Rat.add Rat.sub Rat.mul Rat.inv in
/-- C6 (code bug): nothing bounds the size of the excluded set at
`PHI_DIVS - 2` and no error is ever raised.  On the histogram `hist6`
(all 72 channels positive, channel `i` holding `4 ^ i` counts) with target
p-value `1/2`, the pruning loop grows the excluded set to 71 entries —
past the claimed bound `PHI_DIVS - 2 = 70` — then to 72, and finally
reads the uninitialized `maxphi` member (C++ undefined behaviour, `none`
in the embedding) instead of raising anything. -/
theorem pruner_overruns_bound :
    iterState prob0 (1/2) hist6 71 = some ((List.range' 2 71).reverse) ∧
      PHI_DIVS - 2 < ((List.range' 2 71).reverse).length ∧
      getignored prob0 (1/2) hist6 = none := by
  refine ⟨by decide, by decide, by decide⟩

/-- C7: `OutlierPruner` is deterministic — the embedded pruner is a pure
function of the collected data and the configuration — and the
most-occupied channel reported by the uniformity test is characterized
exactly: `maxphi` names a channel iff it is a non-excluded positive-count
channel of `1..PHI_DIVS` whose count no other non-excluded channel
exceeds, every earlier non-excluded channel having a strictly smaller
count (so the first-encountered channel, in ascending order, wins ties). -/
theorem pruner_deterministic_tiebreak :
    (∀ (prob : ℚ → ℤ → ℚ) (pv : ℚ) (hist : ℕ → ℕ),
      getignored prob pv hist = getignored prob pv hist) ∧
    ∀ (hist : ℕ → ℕ) (ignore : List ℕ) (m : ℕ),
      (statsLoop hist ignore).maxphi = some m ↔
        (m ∈ List.range' 1 PHI_DIVS ∧ m ∉ ignore ∧ 0 < hist m ∧
          (∀ j ∈ List.range' 1 PHI_DIVS, j ∉ ignore → hist j ≤ hist m) ∧
          (∀ j ∈ List.range' 1 PHI_DIVS, j ∉ ignore → j < m → hist j < hist m)) := by
  refine ⟨fun _ _ _ => rfl, ?_⟩
  intro hist ignore m
  constructor
  · exact statsLoop_maxphi_some hist ignore m
  · intro hr
    exact statsLoop_maxphi_intro hist ignore m hr.1 hr.2.1 hr.2.2.1
      hr.2.2.2.1 hr.2.2.2.2

set_option maxRecDepth 1000000 in
/-- Witness for C7: on `histW` the reported most-occupied channel of the
full histogram is channel 1, and the characterization yields that channel
2 cannot out-count it. -/
theorem pruner_deterministic_tiebreak_app :
    (statsLoop histW []).maxphi = some 1 ∧ histW 2 ≤ histW 1 := by
  have hd : (statsLoop histW []).maxphi = some 1 := by decide
  have h2 := (pruner_deterministic_tiebreak.2 histW [] 1).mp hd
  exact ⟨hd, h2.2.2.2.1 2 (by decide) (by decide)⟩

/-- C9 (amended): config parsing skips blank lines and lines whose first
word starts with `#`; a `pvalue x` line is accepted exactly when `x`
parses as a number in `(0, 1]`; a `<band> <count>` line is accepted
exactly when the band index parses and is in range after offsetting by
`ETA_DIVS / 2` and the count parses non-negative.  A wrong token count,
an unparsable number and an out-of-range band index are reported with the
originating line number, but the negative-count error — and the
out-of-range p-value error — are thrown with plain messages that do not
carry it. -/
theorem config_line_spec (pd : String → Option ℚ) (pl : String → Option ℤ)
    (c : config) (n : ℕ) :
    (∀ ws : List String, ws.takeWhile tokOk = [] →
      configLine pd pl c n ws = .ok c) ∧
    (∀ ws : List String, ws.takeWhile tokOk ≠ [] →
      (ws.takeWhile tokOk).length ≠ 2 →
      configLine pd pl c n ws = .err (.withLine n ("incomplete statement"))) ∧
    (∀ w : String, tokOk w = true →
      ((∃ c2, configLine pd pl c n ["pvalue", w] = .ok c2) ↔
        (∃ v, pd w = some v ∧ 0 < v ∧ v ≤ 1)) ∧
      (∀ v, pd w = some v → 0 < v → v ≤ 1 →
        configLine pd pl c n ["pvalue", w] = .ok { c with _pvalue := v }) ∧
      (pd w = none → configLine pd pl c n ["pvalue", w] =
        .err (.withLine n ("cannot interpret \x27" ++ w ++ "\x27 as a number"))) ∧
      (∀ v, pd w = some v → (v ≤ 0 ∨ 1 < v) →
        configLine pd pl c n ["pvalue", w] =
          .err (.bare ("pvalue must be in (0, 1]")))) ∧
    (∀ w1 w2 : String, tokOk w1 = true → tokOk w2 = true → w1 ≠ "pvalue" →
      ((∃ c2, configLine pd pl c n [w1, w2] = .ok c2) ↔
        (∃ b cnt, pl w1 = some b ∧ 0 ≤ b + ETA_DIVS / 2 ∧
          b + ETA_DIVS / 2 < ETA_DIVS ∧ pl w2 = some cnt ∧ 0 ≤ cnt)) ∧
      (pl w1 = none → configLine pd pl c n [w1, w2] =
        .err (.withLine n ("unknown parameter \x27" ++ w1 ++ "\x27"))) ∧
      (∀ b, pl w1 = some b →
        (b + ETA_DIVS / 2 < 0 ∨ ETA_DIVS ≤ b + ETA_DIVS / 2) →
        configLine pd pl c n [w1, w2] =
          .err (.withLine n ("ieta out of bounds"))) ∧
      (∀ b, pl w1 = some b → 0 ≤ b + ETA_DIVS / 2 →
        b + ETA_DIVS / 2 < ETA_DIVS → pl w2 = none →
        configLine pd pl c n [w1, w2] =
          .err (.withLine n ("cannot interpret \x27" ++ w2 ++ "\x27 as a number"))) ∧
      (∀ b cnt, pl w1 = some b → 0 ≤ b + ETA_DIVS / 2 →
        b + ETA_DIVS / 2 < ETA_DIVS → pl w2 = some cnt → cnt < 0 →
        configLine pd pl c n [w1, w2] = .err (.bare ("value must be positive"))) ∧
      (∀ b cnt, pl w1 = some b → 0 ≤ b + ETA_DIVS / 2 →
        b + ETA_DIVS / 2 < ETA_DIVS → pl w2 = some cnt → 0 ≤ cnt →
        configLine pd pl c n [w1, w2] =
          .ok { c with _numhot := (b + ETA_DIVS / 2, cnt) :: c._numhot })) := by
  have hpv : tokOk "pvalue" = true := by decide
  refine ⟨?_, ?_, ?_, ?_⟩
  · intro ws hw
    simp [configLine, hw]
  · intro ws hw1 hw2
    cases hw : ws.takeWhile tokOk with
    | nil => exact absurd hw hw1
    | cons w1 rest =>
      cases rest with
      | nil => simp [configLine, hw]
      | cons w2 rest2 =>
        cases rest2 with
        | nil => rw [hw] at hw2; simp at hw2
        | cons w3 rest3 => simp [configLine, hw]
  · intro w hw
    have ht : (["pvalue", w] : List String).takeWhile tokOk = ["pvalue", w] := by
      simp [List.takeWhile_cons, hpv, hw]
    refine ⟨?_, ?_, ?_, ?_⟩
    · constructor
      · intro hok
        obtain ⟨c2, hc2⟩ := hok
        cases hpd : pd w with
        | none => simp [configLine, ht, hpd] at hc2
        | some v =>
          by_cases hr : v ≤ 0 ∨ 1 < v
          · simp [configLine, ht, hpd, hr] at hc2
          · push_neg at hr
            exact ⟨v, rfl, hr.1, hr.2⟩
      · intro hex
        obtain ⟨v, hpd, hv0, hv1⟩ := hex
        have hr : ¬(v ≤ 0 ∨ 1 < v) := by push_neg; exact ⟨hv0, hv1⟩
        exact ⟨{ c with _pvalue := v }, by simp [configLine, ht, hpd, hr]⟩
    · intro v hpd hv0 hv1
      have hr : ¬(v ≤ 0 ∨ 1 < v) := by push_neg; exact ⟨hv0, hv1⟩
      simp [configLine, ht, hpd, hr]
    · intro hpd
      simp [configLine, ht, hpd]
    · intro v hpd hr
      simp [configLine, ht, hpd, hr]
  · intro w1 w2 hw1 hw2 hne
    have ht : ([w1, w2] : List String).takeWhile tokOk = [w1, w2] := by
      simp [List.takeWhile_cons, hw1, hw2]
    refine ⟨?_, ?_, ?_, ?_, ?_, ?_⟩
    · constructor
      · intro hok
        obtain ⟨c2, hc2⟩ := hok
        cases hb : pl w1 with
        | none => simp [configLine, ht, hne, hb] at hc2
        | some b =>
          by_cases hr : b + ETA_DIVS / 2 < 0 ∨ ETA_DIVS ≤ b + ETA_DIVS / 2
          · simp [configLine, ht, hne, hb, hr] at hc2
          · cases hcnt : pl w2 with
            | none => simp [configLine, ht, hne, hb, hr, hcnt] at hc2
            | some cnt =>
              by_cases hneg : cnt < 0
              · simp [configLine, ht, hne, hb, hr, hcnt, hneg] at hc2
              · push_neg at hr hneg
                exact ⟨b, cnt, rfl, hr.1, hr.2, rfl, hneg⟩
      · intro hex
        obtain ⟨b, cnt, hb, hr1, hr2, hcnt, hnn⟩ := hex
        have hr : ¬(b + ETA_DIVS / 2 < 0 ∨ ETA_DIVS ≤ b + ETA_DIVS / 2) := by omega
        have hneg : ¬cnt < 0 := by omega
        exact ⟨{ c with _numhot := (b + ETA_DIVS / 2, cnt) :: c._numhot },
          by simp [configLine, ht, hne, hb, hr, hcnt, hneg]⟩
    · intro hb
      simp [configLine, ht, hne, hb]
    · intro b hb hr
      simp [configLine, ht, hne, hb, hr]
    · intro b hb hr1 hr2 hcnt
      have hr : ¬(b + ETA_DIVS / 2 < 0 ∨ ETA_DIVS ≤ b + ETA_DIVS / 2) := by omega
      simp [configLine, ht, hne, hb, hr, hcnt]
    · intro b cnt hb hr1 hr2 hcnt hneg
      have hr : ¬(b + ETA_DIVS / 2 < 0 ∨ ETA_DIVS ≤ b + ETA_DIVS / 2) := by omega
      simp [configLine, ht, hne, hb, hr, hcnt, hneg]
    · intro b cnt hb hr1 hr2 hcnt hnn
      have hr : ¬(b + ETA_DIVS / 2 < 0 ∨ ETA_DIVS ≤ b + ETA_DIVS / 2) := by omega
      have hneg : ¬cnt < 0 := by omega
      simp [configLine, ht, hne, hb, hr, hcnt, hneg]

unseal Rat.add Rat.sub Rat.mul Rat.inv in
/-- Witness for C9 (amended): the line `pvalue x` at line 1, with `x` not
parsing as a number, is rejected with a message that carries the line
number. -/
theorem config_line_spec_app :
    configLine pd0 pl0 cfg0 1 ["pvalue", "x"] =
      .err (.withLine 1 ("cannot interpret \x27x\x27 as a number")) := by
  have h := ((config_line_spec pd0 pl0 cfg0 1).2.2.1 "x" (by decide)).2.2.1 rfl
  rw [h]
  decide

unseal Rat.add Rat.sub Rat.mul Rat.inv in
/-- C9 counterexample: the negative-count line `0 -1` at line 1 is rejected
with the plain message `value must be positive`, thrown without going
through `config::errmsg` — its message does not report the originating
line number. -/
theorem config_negative_count_cex :
    configLine pd0 pl0 cfg0 1 ["0", "-1"] =
        .err (.bare ("value must be positive")) ∧
      reportsLineNumber (.bare ("value must be positive")) = false ∧
      renderErr (.bare ("value must be positive")) = "value must be positive" := by
  refine ⟨by decide, rfl, rfl⟩
